import Mathlib

/-!
Verification of the NLP.py optimization library (TRON bound-constrained
trust-region solver and the regularized SQP solver) against its
natural-language specification.

The embedding works over exact rational arithmetic.  Vectors are functions
`Fin n → ℚ`; Euclidean-norm comparisons `‖v‖ ≤ b` are represented by the
exactly equivalent `0 ≤ b ∧ normSq v ≤ b^2`, and the one genuine square
root in the code (`trqsol`'s stabilized radical) is passed in as an extra
argument `rad` constrained by `radExact` (`rad` is the exact nonnegative
square root the floating code computes).  Loops that are not structurally
bounded in the source are given an explicit fuel parameter and return
`Option`; running out of fuel yields `none`, so `∀ fuel, … = none`
expresses nontermination of the source loop.
-/

namespace NLPy

/-- Vectors of length `n` over exact rationals. -/
abbrev VecQ (n : ℕ) : Type := Fin n → ℚ

/-- Dot product, `np.dot(a, b)`. -/
def dot {n : ℕ} (a b : VecQ n) : ℚ := ∑ i, a i * b i

/-- Squared Euclidean norm, `norms.norm2(a)**2`. -/
def normSq {n : ℕ} (a : VecQ n) : ℚ := dot a a

/-- `a * p + w` as computed by the numpy expressions in the source. -/
def axpy {n : ℕ} (a : ℚ) (p w : VecQ n) : VecQ n := fun i => a * p i + w i

theorem dot_comm {n : ℕ} (a b : VecQ n) : dot a b = dot b a := by
  unfold dot; exact Finset.sum_congr rfl fun i _ => mul_comm _ _

theorem dot_self_nonneg {n : ℕ} (a : VecQ n) : 0 ≤ dot a a :=
  Finset.sum_nonneg fun i _ => mul_self_nonneg (a i)

theorem normSq_nonneg {n : ℕ} (a : VecQ n) : 0 ≤ normSq a := dot_self_nonneg a

theorem dot_self_pos {n : ℕ} {a : VecQ n} (h : a ≠ 0) : 0 < dot a a := by
  rcases lt_or_eq_of_le (dot_self_nonneg a) with hlt | heq
  · exact hlt
  · exfalso; apply h; funext i
    have hz : ∀ j ∈ Finset.univ, (0 : ℚ) ≤ a j * a j :=
      fun j _ => mul_self_nonneg (a j)
    have := (Finset.sum_eq_zero_iff_of_nonneg hz).1 heq.symm i (Finset.mem_univ i)
    have : a i * a i = 0 := this
    exact mul_self_eq_zero.1 this

theorem dot_axpy_right {n : ℕ} (q : VecQ n) (a : ℚ) (p w : VecQ n) :
    dot q (axpy a p w) = a * dot q p + dot q w := by
  unfold dot axpy
  rw [Finset.mul_sum, ← Finset.sum_add_distrib]
  exact Finset.sum_congr rfl fun i _ => by ring

theorem dot_axpy_left {n : ℕ} (a : ℚ) (p w q : VecQ n) :
    dot (axpy a p w) q = a * dot p q + dot w q := by
  rw [dot_comm, dot_axpy_right, dot_comm q p, dot_comm q w]

theorem normSq_axpy {n : ℕ} (a : ℚ) (p w : VecQ n) :
    normSq (axpy a p w) =
      normSq w + 2 * a * dot p w + a ^ 2 * dot p p := by
  unfold normSq
  rw [dot_axpy_right, dot_axpy_left, dot_axpy_left, dot_comm w p]
  ring

/-! ## TRONTrustRegion (src/nlp/optimize/tron.py, lines 16-62) -/

/-- `eta0 = 1e-4` from `TRONTrustRegion.__init__`. -/
def eta0 : ℚ := 1 / 10000

/-- `eta1 = 0.25`. -/
def eta1 : ℚ := 1 / 4

/-- `eta2 = 0.75`. -/
def eta2 : ℚ := 3 / 4

/-- `gamma1 = 0.25`. -/
def gamma1 : ℚ := 1 / 4

/-- `gamma2 = 0.5`. -/
def gamma2 : ℚ := 1 / 2

/-- `gamma3 = 4.0`. -/
def gamma3 : ℚ := 4

/-- `radius_max = 1.0e+10`. -/
def radiusMax : ℚ := 10 ^ 10

/-- `TRONTrustRegion.update_radius(ratio, step_norm, alpha)` acting on the
current radius (the method mutates `self.radius`; here the old radius comes
in last and the new radius is returned). -/
def updateRadius (rho stepNorm alpha radius : ℚ) : ℚ :=
  if rho ≤ eta0 then
    min (max alpha gamma1 * stepNorm) (gamma2 * radius)
  else if rho ≤ eta1 then
    max (gamma1 * radius) (min (alpha * stepNorm) (gamma2 * radius))
  else if rho ≤ eta2 then
    max (gamma1 * radius) (min (alpha * stepNorm) (gamma3 * radius))
  else
    max radius (min (alpha * stepNorm) (gamma3 * radius))

/-- The quadratic-fit rule of `TRONFramework.solve` (lines 688-693) that
produces the `alpha` later fed to `update_radius`. -/
def quadraticFitAlpha (slope fTrial f : ℚ) : ℚ :=
  if fTrial - f - slope ≤ 0 then gamma3
  else max gamma1 (-(1 / 2) * (slope / (fTrial - f - slope)))

/-- Claim C4 (corrected): after `update_radius` the radius is positive and at
most quadruples, for every ratio, every positive step norm and every alpha
(in particular the quadratic-fit alpha, which is always at least `gamma1`);
but `update_radius` applies no `radius_max` cap, so `radius ≤ 1e10` is not
an invariant. -/
theorem updateRadius_pos_and_bounded (rho stepNorm alpha radius : ℚ)
    (hrad : 0 < radius) (hradmax : radius ≤ radiusMax)
    (hstep : 0 < stepNorm) (halpha : gamma1 ≤ alpha) :
    0 < updateRadius rho stepNorm alpha radius ∧
      updateRadius rho stepNorm alpha radius ≤ 4 * radius ∧
      (∀ sl ft f0 : ℚ, gamma1 ≤ quadraticFitAlpha sl ft f0) := by
  refine ⟨?_, ?_, ?_⟩
  · unfold updateRadius eta0 eta1 eta2 gamma1 gamma2 gamma3
    split_ifs with h1 h2 h3
    · exact lt_min (mul_pos (lt_of_lt_of_le (by norm_num) (le_max_right _ _)) hstep)
        (by nlinarith [hrad])
    · exact lt_of_lt_of_le (by nlinarith [hrad]) (le_max_left ((1 / 4) * radius) _)
    · exact lt_of_lt_of_le (by nlinarith [hrad]) (le_max_left ((1 / 4) * radius) _)
    · exact lt_of_lt_of_le hrad (le_max_left radius _)
  · unfold updateRadius eta0 eta1 eta2 gamma1 gamma2 gamma3
    split_ifs with h1 h2 h3
    · exact le_trans (min_le_right _ _) (by nlinarith [hrad])
    · apply max_le (by nlinarith [hrad])
      exact le_trans (min_le_right _ _) (by nlinarith [hrad])
    · apply max_le (by nlinarith [hrad])
      exact le_trans (min_le_right _ _) (by nlinarith [hrad])
    · apply max_le (by nlinarith [hrad])
      exact le_trans (min_le_right _ _) (by nlinarith [hrad])
  · intro sl ft f0
    unfold quadraticFitAlpha gamma1 gamma3
    split_ifs with h
    · norm_num
    · exact le_max_left _ _

/-- Witness for `updateRadius_pos_and_bounded` at
`ratio = 1/2, stepNorm = 1, alpha = 1, radius = 1`. -/
theorem updateRadius_pos_and_bounded_witness :
    0 < updateRadius (1 / 2) 1 1 1 ∧ updateRadius (1 / 2) 1 1 1 ≤ 4 * 1 :=
  ⟨(updateRadius_pos_and_bounded (1 / 2) 1 1 1 (by norm_num)
      (by norm_num [radiusMax]) (by norm_num) (by norm_num [gamma1])).1,
   (updateRadius_pos_and_bounded (1 / 2) 1 1 1 (by norm_num)
      (by norm_num [radiusMax]) (by norm_num) (by norm_num [gamma1])).2.1⟩

/-- Counterexample to claim C4 as stated: starting from
`radius = radius_max = 1e10` with `ratio = 1/2 ∈ (eta1, eta2]`,
`step_norm = 1e11 > 0` and the quadratic-fit value `alpha = 1 ≥ gamma1`,
`update_radius` returns `4e10 > radius_max`. -/
theorem updateRadius_exceeds_radiusMax :
    updateRadius (1 / 2) (10 ^ 11) 1 (10 ^ 10) = 4 * 10 ^ 10 ∧
      ¬ (updateRadius (1 / 2) (10 ^ 11) 1 (10 ^ 10) ≤ radiusMax) := by
  constructor
  · norm_num [updateRadius, eta0, eta1, eta2, gamma1, gamma3]
  · norm_num [updateRadius, eta0, eta1, eta2, gamma1, gamma3, radiusMax]

/-! ## TRONFramework.project and the initial-point handling in solve
(src/nlp/optimize/tron.py, lines 147-149 and 597-600) -/

/-- `project(x, xl, xu) = np.maximum(np.minimum(x, xu), xl)`. -/
def project {n : ℕ} (x xl xu : VecQ n) : VecQ n :=
  fun i => max (min (x i) (xu i)) (xl i)

/-- `xl ≤ x ≤ xu` componentwise. -/
def inBox {n : ℕ} (x xl xu : VecQ n) : Prop :=
  ∀ i, xl i ≤ x i ∧ x i ≤ xu i

instance {n : ℕ} (x xl xu : VecQ n) : Decidable (inBox x xl xu) := by
  unfold inBox; infer_instance

/-- The initial-point handling of `TRONFramework.solve` (line 600): the
statement `self.project(self.x, model.Lvar, model.Uvar)` computes a
projection but its return value is discarded (never assigned back to
`self.x`), so the iterate entering the main loop is the unmodified `x0`. -/
def solveInitialX {n : ℕ} (x0 xl xu : VecQ n) : VecQ n :=
  let _discarded := project x0 xl xu
  x0

/-- Claim C5 (code bug): for the infeasible start `x0 = (2)` with box
`[0, 1]`, `TRONFramework.solve` leaves the iterate at `2`, outside the box,
although the projection it computes (and discards) would be feasible.  So
the iterate handed to `breakpoints`/`cauchy` is not guaranteed to satisfy
`l ≤ x ≤ u`. -/
theorem tron_solve_skips_projection :
    solveInitialX (fun _ : Fin 1 => (2 : ℚ)) (fun _ => 0) (fun _ => 1) =
      (fun _ => 2) ∧
    ¬ inBox (solveInitialX (fun _ : Fin 1 => (2 : ℚ)) (fun _ => 0) (fun _ => 1))
        (fun _ => 0) (fun _ => 1) ∧
    inBox (project (fun _ : Fin 1 => (2 : ℚ)) (fun _ => 0) (fun _ => 1))
        (fun _ => 0) (fun _ => 1) := by
  refine ⟨rfl, ?_, ?_⟩ <;> decide

/-! ## TRONFramework.breakpoints (src/nlp/optimize/tron.py, lines 171-205) -/

/-- The per-coordinate test of the `breakpoints` loop: coordinate `i`
produces a breakpoint when `x[i] < xu[i] and d[i] > 0`, or (elif)
`x[i] > xl[i] and d[i] < 0`. -/
def bpQ {n : ℕ} (x d xl xu : VecQ n) (i : Fin n) : Prop :=
  (x i < xu i ∧ 0 < d i) ∨ (xl i < x i ∧ d i < 0)

instance {n : ℕ} (x d xl xu : VecQ n) (i : Fin n) :
    Decidable (bpQ x d xl xu i) := by
  unfold bpQ; infer_instance

/-- The breakpoint value computed for a qualifying coordinate. -/
def bpVal {n : ℕ} (x d xl xu : VecQ n) (i : Fin n) : ℚ :=
  if x i < xu i ∧ 0 < d i then (xu i - x i) / d i else (xl i - x i) / d i

/-- The optional breakpoint of coordinate `i`, mirroring the two guarded
branches of the loop body. -/
def bpT {n : ℕ} (x d xl xu : VecQ n) (i : Fin n) : Option ℚ :=
  if x i < xu i ∧ 0 < d i then some ((xu i - x i) / d i)
  else if xl i < x i ∧ d i < 0 then some ((xl i - x i) / d i)
  else none

/-- The state update for one breakpoint value `brpt`:
`if nbrpt == 1` (first breakpoint) both running extremes are initialized,
otherwise `brptmin = min(brpt, brptmin)` and `brptmax = max(brpt, brptmax)`. -/
def bpUpd (t : ℚ) (st : ℕ × ℚ × ℚ) : ℕ × ℚ × ℚ :=
  if st.1 = 0 then (1, t, t) else (st.1 + 1, min t st.2.1, max t st.2.2)

/-- `TRONFramework.breakpoints(x, d, xl, xu) → (nbrpt, brptmin, brptmax)`,
with the exceptional case `nbrpt == 0 → (0, 0, 0)`. -/
def breakpoints {n : ℕ} (x d xl xu : VecQ n) : ℕ × ℚ × ℚ :=
  let r := (List.finRange n).foldl
    (fun st i =>
      match bpT x d xl xu i with
      | some t => bpUpd t st
      | none => st) (0, 0, 0)
  if r.1 = 0 then (0, 0, 0) else r

theorem bpT_isSome_iff {n : ℕ} (x d xl xu : VecQ n) (i : Fin n) :
    (bpT x d xl xu i).isSome = true ↔ bpQ x d xl xu i := by
  unfold bpT bpQ
  split_ifs with h1 h2 <;> simp [*]

theorem bpT_eq_some_of_bpQ {n : ℕ} (x d xl xu : VecQ n) (i : Fin n)
    (h : bpQ x d xl xu i) : bpT x d xl xu i = some (bpVal x d xl xu i) := by
  unfold bpT bpVal
  rcases h with h | h
  · rw [if_pos h, if_pos h]
  · by_cases h1 : x i < xu i ∧ 0 < d i
    · rw [if_pos h1, if_pos h1]
    · rw [if_neg h1, if_neg h1, if_pos h]

theorem bpT_mem_val {n : ℕ} {x d xl xu : VecQ n} {t : ℚ} {i : Fin n}
    (h : bpT x d xl xu i = some t) : bpQ x d xl xu i ∧ bpVal x d xl xu i = t := by
  have hs : (bpT x d xl xu i).isSome = true := by rw [h]; rfl
  have hq := (bpT_isSome_iff x d xl xu i).1 hs
  refine ⟨hq, ?_⟩
  have := bpT_eq_some_of_bpQ x d xl xu i hq
  rw [this] at h
  exact Option.some_injective _ h

theorem bpVal_nonneg {n : ℕ} {x d xl xu : VecQ n} {i : Fin n}
    (hfeas : xl i ≤ x i ∧ x i ≤ xu i) (h : bpQ x d xl xu i) :
    0 ≤ bpVal x d xl xu i := by
  unfold bpVal
  rcases h with ⟨hx, hd⟩ | ⟨hx, hd⟩
  · rw [if_pos ⟨hx, hd⟩]
    exact div_nonneg (by linarith) (le_of_lt hd)
  · have h1 : ¬ (x i < xu i ∧ 0 < d i) := by
      rintro ⟨_, hd2⟩; linarith
    rw [if_neg h1, div_nonneg_iff]
    right; exact ⟨by linarith, le_of_lt hd⟩

theorem foldl_bpT_eq_filterMap {n : ℕ} (x d xl xu : VecQ n) :
    ∀ (L : List (Fin n)) (st : ℕ × ℚ × ℚ),
      L.foldl (fun st i =>
        match bpT x d xl xu i with
        | some t => bpUpd t st
        | none => st) st =
      (L.filterMap (bpT x d xl xu)).foldl (fun st t => bpUpd t st) st := by
  intro L
  induction L with
  | nil => intro st; rfl
  | cons i L ih =>
    intro st
    rw [List.foldl_cons, List.filterMap_cons]
    cases h : bpT x d xl xu i with
    | none => simp only [h]; exact ih st
    | some t => simp only [h, List.foldl_cons]; exact ih (bpUpd t st)

theorem foldl_bpUpd_of_ne_zero :
    ∀ (ts : List ℚ) (st : ℕ × ℚ × ℚ), st.1 ≠ 0 →
      ts.foldl (fun st t => bpUpd t st) st =
        (st.1 + ts.length, ts.foldl min st.2.1, ts.foldl max st.2.2) := by
  intro ts
  induction ts with
  | nil => intro st h; simp
  | cons t ts ih =>
    intro st h
    rw [List.foldl_cons]
    have hupd : bpUpd t st = (st.1 + 1, min t st.2.1, max t st.2.2) := by
      unfold bpUpd; rw [if_neg h]
    rw [hupd, ih _ (by simp)]
    simp only [List.foldl_cons, List.length_cons]
    refine congrArg₂ Prod.mk (by omega) (congrArg₂ Prod.mk ?_ ?_)
    · rw [min_comm]
    · rw [max_comm]

theorem foldl_min_le_init (ts : List ℚ) (a : ℚ) : ts.foldl min a ≤ a := by
  induction ts generalizing a with
  | nil => exact le_refl a
  | cons t ts ih =>
    rw [List.foldl_cons]
    exact le_trans (ih (min a t)) (min_le_left a t)

theorem foldl_min_le_mem {ts : List ℚ} {b : ℚ} (h : b ∈ ts) (a : ℚ) :
    ts.foldl min a ≤ b := by
  induction ts generalizing a with
  | nil => cases h
  | cons t ts ih =>
    rw [List.foldl_cons]
    rcases List.mem_cons.1 h with rfl | hmem
    · exact le_trans (foldl_min_le_init ts (min a b)) (min_le_right a b)
    · exact ih hmem (min a t)

theorem foldl_min_mem (ts : List ℚ) (a : ℚ) :
    ts.foldl min a = a ∨ ts.foldl min a ∈ ts := by
  induction ts generalizing a with
  | nil => left; rfl
  | cons t ts ih =>
    rw [List.foldl_cons]
    rcases ih (min a t) with h | h
    · rcases le_total a t with hat | hta
      · left; rw [h, min_eq_left hat]
      · right; rw [h, min_eq_right hta]; exact List.mem_cons_self t ts
    · right; exact List.mem_cons_of_mem t h

theorem init_le_foldl_max (ts : List ℚ) (a : ℚ) : a ≤ ts.foldl max a := by
  induction ts generalizing a with
  | nil => exact le_refl a
  | cons t ts ih =>
    rw [List.foldl_cons]
    exact le_trans (le_max_left a t) (ih (max a t))

theorem mem_le_foldl_max {ts : List ℚ} {b : ℚ} (h : b ∈ ts) (a : ℚ) :
    b ≤ ts.foldl max a := by
  induction ts generalizing a with
  | nil => cases h
  | cons t ts ih =>
    rw [List.foldl_cons]
    rcases List.mem_cons.1 h with rfl | hmem
    · exact le_trans (le_max_right a b) (init_le_foldl_max ts (max a b))
    · exact ih hmem (max a t)

theorem foldl_max_mem (ts : List ℚ) (a : ℚ) :
    ts.foldl max a = a ∨ ts.foldl max a ∈ ts := by
  induction ts generalizing a with
  | nil => left; rfl
  | cons t ts ih =>
    rw [List.foldl_cons]
    rcases ih (max a t) with h | h
    · rcases le_total a t with hat | hta
      · right; rw [h, max_eq_right hat]; exact List.mem_cons_self t ts
      · left; rw [h, max_eq_left hta]
    · right; exact List.mem_cons_of_mem t h

theorem length_filterMap_eq_countP {α β : Type} (f : α → Option β) :
    ∀ L : List α, (L.filterMap f).length = L.countP (fun a => (f a).isSome) := by
  intro L
  induction L with
  | nil => rfl
  | cons a L ih =>
    rw [List.filterMap_cons, List.countP_cons]
    cases h : f a with
    | none => simp [h, ih]
    | some b => simp [h, ih]

theorem countP_finRange_eq_card {n : ℕ} (p : Fin n → Prop) [DecidablePred p] :
    (List.finRange n).countP (fun i => decide (p i)) =
      (Finset.univ.filter p).card := by
  rw [Finset.card_filter]
  rw [Fin.sum_univ_def]
  induction (List.finRange n) with
  | nil => rfl
  | cons i L ih =>
    rw [List.countP_cons, List.map_cons, List.sum_cons, ih]
    by_cases h : p i <;> simp [h] <;> omega

theorem breakpoints_eq_of_filterMap {n : ℕ} (x d xl xu : VecQ n) {t : ℚ}
    {ts : List ℚ}
    (h : (List.finRange n).filterMap (bpT x d xl xu) = t :: ts) :
    breakpoints x d xl xu = (ts.length + 1, ts.foldl min t, ts.foldl max t) := by
  unfold breakpoints
  rw [foldl_bpT_eq_filterMap, h, List.foldl_cons]
  have h0 : bpUpd t (0, 0, 0) = (1, t, t) := rfl
  rw [h0, foldl_bpUpd_of_ne_zero ts (1, t, t) (by simp)]
  simp [Nat.add_comm]

theorem mem_bp_list {n : ℕ} {x d xl xu : VecQ n} {t : ℚ} :
    t ∈ (List.finRange n).filterMap (bpT x d xl xu) ↔
      ∃ i, bpQ x d xl xu i ∧ bpVal x d xl xu i = t := by
  rw [List.mem_filterMap]
  constructor
  · rintro ⟨i, _, hi⟩
    exact ⟨i, (bpT_mem_val hi).1, (bpT_mem_val hi).2⟩
  · rintro ⟨i, hq, hv⟩
    exact ⟨i, List.mem_finRange i, by rw [bpT_eq_some_of_bpQ x d xl xu i hq, hv]⟩

/-- Claim C9: for every feasible `x` and every direction `d`,
`breakpoints(x, d, xl, xu)` returns `(count, tMin, tMax)` where `count` is
the number of coordinates with `(d_i > 0 ∧ x_i < u_i) ∨ (d_i < 0 ∧ x_i > l_i)`,
`tMin`/`tMax` are the minimum/maximum of the hitting parameters over those
coordinates (both attained and both nonnegative), and the result is
`(0, 0, 0)` when no coordinate qualifies (in particular when `d = 0`). -/
theorem breakpoints_spec {n : ℕ} (x d xl xu : VecQ n)
    (hfeas : ∀ i, xl i ≤ x i ∧ x i ≤ xu i) :
    (breakpoints x d xl xu).1 =
        (Finset.univ.filter (fun i => bpQ x d xl xu i)).card ∧
      0 ≤ (breakpoints x d xl xu).2.1 ∧
      0 ≤ (breakpoints x d xl xu).2.2 ∧
      (∀ i, bpQ x d xl xu i →
        (breakpoints x d xl xu).2.1 ≤ bpVal x d xl xu i ∧
          bpVal x d xl xu i ≤ (breakpoints x d xl xu).2.2) ∧
      ((∃ i, bpQ x d xl xu i) →
        (∃ i, bpQ x d xl xu i ∧
          bpVal x d xl xu i = (breakpoints x d xl xu).2.1) ∧
        (∃ j, bpQ x d xl xu j ∧
          bpVal x d xl xu j = (breakpoints x d xl xu).2.2)) ∧
      ((∀ i, ¬ bpQ x d xl xu i) → breakpoints x d xl xu = (0, 0, 0)) := by
  have hcard : ((List.finRange n).filterMap (bpT x d xl xu)).length =
      (Finset.univ.filter (fun i => bpQ x d xl xu i)).card := by
    rw [length_filterMap_eq_countP]
    rw [← countP_finRange_eq_card (fun i => bpQ x d xl xu i)]
    apply List.countP_congr
    intro i _
    rw [decide_eq_true_iff]
    exact bpT_isSome_iff x d xl xu i
  cases hT : (List.finRange n).filterMap (bpT x d xl xu) with
  | nil =>
    have hres : breakpoints x d xl xu = (0, 0, 0) := by
      unfold breakpoints
      rw [foldl_bpT_eq_filterMap, hT]
      rfl
    have hnoq : ∀ i, ¬ bpQ x d xl xu i := by
      intro i hq
      have : bpVal x d xl xu i ∈ (List.finRange n).filterMap (bpT x d xl xu) :=
        mem_bp_list.2 ⟨i, hq, rfl⟩
      rw [hT] at this
      cases this
    refine ⟨?_, ?_, ?_, ?_, ?_, ?_⟩
    · rw [hres, ← hcard, hT]; rfl
    · rw [hres]
    · rw [hres]
    · intro i hq; exact absurd hq (hnoq i)
    · rintro ⟨i, hq⟩; exact absurd hq (hnoq i)
    · intro _; exact hres
  | cons t ts =>
    have hres := breakpoints_eq_of_filterMap x d xl xu hT
    have hminmem : ∃ i, bpQ x d xl xu i ∧
        bpVal x d xl xu i = (breakpoints x d xl xu).2.1 := by
      rw [hres]
      rcases foldl_min_mem ts t with h | h
      · refine mem_bp_list.1 ?_
        rw [hT, h]; exact List.mem_cons_self t ts
      · refine mem_bp_list.1 ?_
        rw [hT]; exact List.mem_cons_of_mem t h
    have hmaxmem : ∃ j, bpQ x d xl xu j ∧
        bpVal x d xl xu j = (breakpoints x d xl xu).2.2 := by
      rw [hres]
      rcases foldl_max_mem ts t with h | h
      · refine mem_bp_list.1 ?_
        rw [hT, h]; exact List.mem_cons_self t ts
      · refine mem_bp_list.1 ?_
        rw [hT]; exact List.mem_cons_of_mem t h
    refine ⟨?_, ?_, ?_, ?_, ?_, ?_⟩
    · rw [hres, ← hcard, hT]; simp
    · rcases hminmem with ⟨i, hq, hv⟩
      rw [← hv]; exact bpVal_nonneg (hfeas i) hq
    · rcases hmaxmem with ⟨j, hq, hv⟩
      rw [← hv]; exact bpVal_nonneg (hfeas j) hq
    · intro i hq
      have hmem : bpVal x d xl xu i ∈ t :: ts := by
        rw [← hT]; exact mem_bp_list.2 ⟨i, hq, rfl⟩
      rw [hres]
      rcases List.mem_cons.1 hmem with hv | hv
      · exact ⟨hv ▸ foldl_min_le_init ts t, hv ▸ init_le_foldl_max ts t⟩
      · exact ⟨foldl_min_le_mem hv t, mem_le_foldl_max hv t⟩
    · intro _; exact ⟨hminmem, hmaxmem⟩
    · intro hnone
      exfalso
      have : t ∈ (List.finRange n).filterMap (bpT x d xl xu) := by
        rw [hT]; exact List.mem_cons_self t ts
      rcases mem_bp_list.1 this with ⟨i, hq, _⟩
      exact hnone i hq

/-- Witness for `breakpoints_spec`: for `n = 2`, `x = (0, 0)`,
`d = (1, -2)`, box `[-1, 1]²`, both coordinates qualify, the breakpoints
are `1` and `1/2`, so the result is `(2, 1/2, 1)`. -/
theorem breakpoints_spec_witness :
    breakpoints (fun _ : Fin 2 => (0 : ℚ)) (fun i => if i = 0 then 1 else -2)
        (fun _ => -1) (fun _ => 1) = (2, 1 / 2, 1) ∧
      0 ≤ (breakpoints (fun _ : Fin 2 => (0 : ℚ))
        (fun i => if i = 0 then 1 else -2) (fun _ => -1) (fun _ => 1)).2.1 := by
  constructor
  · have h2 : List.finRange 2 = [0, 1] := by decide
    rw [breakpoints, h2]
    norm_num [bpT, bpUpd]
  · exact (breakpoints_spec (fun _ : Fin 2 => (0 : ℚ))
      (fun i => if i = 0 then 1 else -2) (fun _ => -1) (fun _ => 1)
      (by decide)).2.1

/-! ## TRONFramework.projected_gradient_norm2
(src/nlp/optimize/tron.py, lines 575-586) -/

/-- The accumulator `gpnrm2` of `projected_gradient_norm2` (the function
returns `sqrt(gpnrm2)`; everything below is stated at the level of the
squared norm, which determines the norm uniquely since both sides are
nonnegative). -/
def pgAccum {n : ℕ} (x g xl xu : VecQ n) : ℚ :=
  ∑ i, (if xl i ≠ xu i then
          (if x i = xl i then (min (g i) 0) ^ 2
           else if x i = xu i then (max (g i) 0) ^ 2
           else g i ^ 2)
        else 0)

/-- The projected-gradient vector described by the claim: `0` on fixed
variables, `min(g, 0)` at the lower bound, `max(g, 0)` at the upper bound,
`g` on free variables. -/
def projGradVec {n : ℕ} (x g xl xu : VecQ n) : VecQ n := fun i =>
  if xl i = xu i then 0
  else if x i = xl i then min (g i) 0
  else if x i = xu i then max (g i) 0
  else g i

/-- Claim C10: `projected_gradient_norm2(x, g, xl, xu)` is the Euclidean
norm of `projGradVec`: the accumulated sum of squares equals the squared
norm of that vector (the function then takes the square root of both equal
quantities); in particular fixed variables (`xl i = xu i`) contribute
nothing. -/
theorem projected_gradient_norm2_spec {n : ℕ} (x g xl xu : VecQ n) :
    pgAccum x g xl xu = normSq (projGradVec x g xl xu) := by
  unfold pgAccum normSq dot projGradVec
  apply Finset.sum_congr rfl
  intro i _
  by_cases h1 : xl i = xu i
  · simp [h1]
  · by_cases h2 : x i = xl i
    · simp only [ne_eq, h1, not_false_iff, if_true, if_neg h1, if_pos h2,
        ite_false]
      ring
    · by_cases h3 : x i = xu i
      · simp only [ne_eq, h1, not_false_iff, if_true, if_neg h1, if_neg h2,
          if_pos h3, ite_false]
        ring
      · simp only [ne_eq, h1, not_false_iff, if_true, if_neg h1, if_neg h2,
          if_neg h3, ite_false]
        ring

/-! ## The accept/reject branch of TRONFramework.solve
(src/nlp/optimize/tron.py, lines 697-714) -/

/-- The solver state fields touched by the accept/reject branch. -/
structure TronIter (n : ℕ) where
  x : VecQ n
  f : ℚ
  g : VecQ n
  radius : ℚ

/-- The tail of one outer TRON iteration (lines 697-714): the trust-region
radius has just been updated to `radiusNew` (line 697); then, if
`rho > eta0`, the iterate moves to `x_trial = x + s` with
`f = model.obj(x_trial)` and the gradient re-evaluated there
(`step_status = 'Acc'`, encoded `true`); otherwise `x`, `f`, `g` are left
unchanged (`step_status = 'Rej'`, encoded `false`). -/
def tronUpdateIterate {n : ℕ} (obj : VecQ n → ℚ) (grad : VecQ n → VecQ n)
    (cur : TronIter n) (s : VecQ n) (rho radiusNew : ℚ) :
    TronIter n × Bool :=
  let xTrial : VecQ n := fun i => cur.x i + s i
  let fTrial := obj xTrial
  if eta0 < rho then
    (⟨xTrial, fTrial, grad xTrial, radiusNew⟩, true)
  else
    (⟨cur.x, cur.f, cur.g, radiusNew⟩, false)

/-- Claim C7: the TRON step is accepted iff `ratio > eta0 = 1e-4`; on
acceptance `x`, `f`, `g` are replaced by the trial point, its objective
value and the re-evaluated gradient; on rejection `x`, `f`, `g` are
unchanged and only the trust-region radius is updated. -/
theorem tron_accept_reject_rule {n : ℕ} (obj : VecQ n → ℚ)
    (grad : VecQ n → VecQ n) (cur : TronIter n) (s : VecQ n)
    (rho radiusNew : ℚ) :
    ((tronUpdateIterate obj grad cur s rho radiusNew).2 = true ↔ eta0 < rho) ∧
      (eta0 < rho →
        (tronUpdateIterate obj grad cur s rho radiusNew).1.x =
            (fun i => cur.x i + s i) ∧
          (tronUpdateIterate obj grad cur s rho radiusNew).1.f =
            obj (fun i => cur.x i + s i) ∧
          (tronUpdateIterate obj grad cur s rho radiusNew).1.g =
            grad (fun i => cur.x i + s i) ∧
          (tronUpdateIterate obj grad cur s rho radiusNew).1.radius =
            radiusNew) ∧
      (rho ≤ eta0 →
        (tronUpdateIterate obj grad cur s rho radiusNew).1.x = cur.x ∧
          (tronUpdateIterate obj grad cur s rho radiusNew).1.f = cur.f ∧
          (tronUpdateIterate obj grad cur s rho radiusNew).1.g = cur.g ∧
          (tronUpdateIterate obj grad cur s rho radiusNew).1.radius =
            radiusNew) := by
  unfold tronUpdateIterate
  by_cases h : eta0 < rho
  · rw [if_pos h]
    exact ⟨by simp [h], fun _ => ⟨rfl, rfl, rfl, rfl⟩,
      fun hle => absurd h (not_lt.2 hle)⟩
  · rw [if_neg h]
    exact ⟨by simp [h], fun hlt => absurd hlt h,
      fun _ => ⟨rfl, rfl, rfl, rfl⟩⟩

/-- Witness for `tron_accept_reject_rule`: with `rho = 1 > eta0` the step is
accepted and the iterate becomes the trial point. -/
theorem tron_accept_reject_rule_witness :
    (tronUpdateIterate (fun _ : VecQ 1 => (7 : ℚ)) (fun v => v)
        ⟨fun _ => 0, 3, fun _ => 5, 1⟩ (fun _ => 1) 1 2).2 = true ∧
      (tronUpdateIterate (fun _ : VecQ 1 => (7 : ℚ)) (fun v => v)
        ⟨fun _ => 0, 3, fun _ => 5, 1⟩ (fun _ => 1) 1 2).1.f = 7 := by
  have h := tron_accept_reject_rule (fun _ : VecQ 1 => (7 : ℚ)) (fun v => v)
    ⟨fun _ => 0, 3, fun _ => 5, 1⟩ (fun _ => 1) 1 2
  have hlt : eta0 < 1 := by norm_num [eta0]
  exact ⟨h.1.2 hlt, (h.2.1 hlt).2.1⟩

/-! ## TRONFramework.gradient_projection_step and cauchy
(src/nlp/optimize/tron.py, lines 151-169 and 207-279) -/

/-- `gradient_projection_step(x, d, xl, xu)`: the clamped step
`s = P[x + d] - x`, coordinate by coordinate as in the source loop. -/
def gps {n : ℕ} (x d xl xu : VecQ n) : VecQ n := fun i =>
  if x i + d i < xl i then xl i - x i
  else if xu i < x i + d i then xu i - x i
  else d i

/-- Exact encoding of the floating comparison `norms.norm2(v) <= b`:
since `norm2 v = sqrt (normSq v) ≥ 0`, it holds iff `0 ≤ b` and
`normSq v ≤ b^2`. -/
def sqLe {n : ℕ} (v : VecQ n) (b : ℚ) : Prop := 0 ≤ b ∧ normSq v ≤ b ^ 2

instance {n : ℕ} (v : VecQ n) (b : ℚ) : Decidable (sqLe v b) := by
  unfold sqLe; infer_instance

/-- `mu0 = 0.01`, the sufficient-decrease constant of `cauchy`
(and of `projected_linesearch`). -/
def mu0 : ℚ := 1 / 100

/-- The Cauchy trial step `s[alpha] = P[x - alpha*g] - x`. -/
def cstep {n : ℕ} (x g xl xu : VecQ n) (alpha : ℚ) : VecQ n :=
  gps x (fun i => -alpha * g i) xl xu

/-- The interpolation loop of `cauchy` (lines 250-259): reduce `alpha` by
`interpf = 0.1` until `‖s‖ ≤ delta` and `q(s) < mu0·gᵗs`.  The loop has no
iteration bound in the source; fuel exhaustion is reported as `none`. -/
def cauchyInterp {n : ℕ} (H : VecQ n → VecQ n) (x g xl xu : VecQ n)
    (delta : ℚ) : ℕ → ℚ → Option (VecQ n × ℚ)
  | 0, _ => none
  | fuel + 1, alpha =>
    let alphaNew := 1 / 10 * alpha
    let s := cstep x g xl xu alphaNew
    if sqLe s delta ∧
        1 / 2 * dot (H s) s + dot g s < mu0 * dot g s then
      some (s, alphaNew)
    else cauchyInterp H x g xl xu delta fuel alphaNew

/-- The extrapolation loop of `cauchy` (lines 260-277): increase `alpha` by
`extrapf = 10` while it does not exceed the farthest breakpoint and the
step stays inside the trust region, remembering the last successful
`alphas`; returns the final `alphas`. -/
def cauchyExtrap {n : ℕ} (H : VecQ n → VecQ n) (x g xl xu : VecQ n)
    (delta brptmax : ℚ) : ℕ → ℚ → ℚ → Option ℚ
  | 0, _, _ => none
  | fuel + 1, alpha, alphas =>
    if alpha ≤ brptmax then
      let alphaNew := 10 * alpha
      let s := cstep x g xl xu alphaNew
      if sqLe s delta then
        cauchyExtrap H x g xl xu delta brptmax fuel alphaNew
          (if 1 / 2 * dot (H s) s + dot g s < mu0 * dot g s then alphaNew
           else alphas)
      else some alphas
    else some alphas

/-- `TRONFramework.cauchy(x, g, H, xl, xu, delta, alpha)`: decide between
interpolation and extrapolation from the initial `alpha`, then run the
corresponding loop; the extrapolation branch recovers the last successful
step `s = cstep alphas` at the end. -/
def cauchy {n : ℕ} (H : VecQ n → VecQ n) (x g xl xu : VecQ n)
    (delta alpha0 : ℚ) (fuel : ℕ) : Option (VecQ n × ℚ) :=
  let brptmax := (breakpoints x (fun i => -g i) xl xu).2.2
  let s := cstep x g xl xu alpha0
  if ¬ sqLe s delta ∨
      mu0 * dot g s ≤ 1 / 2 * dot (H s) s + dot g s then
    cauchyInterp H x g xl xu delta fuel alpha0
  else
    (cauchyExtrap H x g xl xu delta brptmax fuel alpha0 alpha0).map
      (fun alphaF => (cstep x g xl xu alphaF, alphaF))

/-- An `alpha` is successful when its step is inside the trust region and
achieves strict sufficient decrease. -/
def cauchyGood {n : ℕ} (H : VecQ n → VecQ n) (x g xl xu : VecQ n)
    (delta alpha : ℚ) : Prop :=
  sqLe (cstep x g xl xu alpha) delta ∧
    1 / 2 * dot (H (cstep x g xl xu alpha)) (cstep x g xl xu alpha) +
        dot g (cstep x g xl xu alpha) <
      mu0 * dot g (cstep x g xl xu alpha)

theorem cauchyInterp_correct {n : ℕ} (H : VecQ n → VecQ n)
    (x g xl xu : VecQ n) (delta : ℚ) :
    ∀ (fuel : ℕ) (alpha : ℚ) (s : VecQ n) (aF : ℚ),
      cauchyInterp H x g xl xu delta fuel alpha = some (s, aF) →
      s = cstep x g xl xu aF ∧ cauchyGood H x g xl xu delta aF := by
  intro fuel
  induction fuel with
  | zero => intro alpha s aF h; cases h
  | succ fuel ih =>
    intro alpha s aF h
    rw [cauchyInterp] at h
    split_ifs at h with hc
    · have hs : s = cstep x g xl xu (1 / 10 * alpha) ∧ aF = 1 / 10 * alpha := by
        have := Option.some_injective _ h
        exact ⟨congrArg Prod.fst this.symm, congrArg Prod.snd this.symm⟩
      rcases hs with ⟨rfl, rfl⟩
      exact ⟨rfl, hc⟩
    · exact ih _ s aF h

theorem cauchyExtrap_correct {n : ℕ} (H : VecQ n → VecQ n)
    (x g xl xu : VecQ n) (delta brptmax : ℚ) :
    ∀ (fuel : ℕ) (alpha alphas aF : ℚ),
      cauchyGood H x g xl xu delta alphas →
      cauchyExtrap H x g xl xu delta brptmax fuel alpha alphas = some aF →
      cauchyGood H x g xl xu delta aF := by
  intro fuel
  induction fuel with
  | zero => intro alpha alphas aF _ h; cases h
  | succ fuel ih =>
    intro alpha alphas aF hg h
    rw [cauchyExtrap] at h
    simp only [] at h
    split_ifs at h with h1 h2 h3
    · exact ih _ _ aF ⟨h2, h3⟩ h
    · exact ih _ _ aF hg h
    · exact Option.some_injective _ h ▸ hg
    · exact Option.some_injective _ h ▸ hg

/-- Claim C3 (corrected, partial correctness): whenever `cauchy` returns
(for any amount of fuel), the returned pair `(s, alpha)` satisfies
`s = P[x - alpha*g] - x`, `‖s‖ ≤ delta` (i.e. `0 ≤ delta` and
`normSq s ≤ delta²`) and `q(s) ≤ mu0·gᵗs`; unconditional termination,
however, fails (see the nontermination counterexample at `g = 0`). -/
theorem cauchy_partial_spec {n : ℕ} (H : VecQ n → VecQ n)
    (x g xl xu : VecQ n) (delta alpha0 : ℚ) (fuel : ℕ) (s : VecQ n) (aF : ℚ)
    (h : cauchy H x g xl xu delta alpha0 fuel = some (s, aF)) :
    s = cstep x g xl xu aF ∧ 0 ≤ delta ∧ normSq s ≤ delta ^ 2 ∧
      1 / 2 * dot (H s) s + dot g s ≤ mu0 * dot g s := by
  unfold cauchy at h
  simp only [] at h
  split_ifs at h with hc
  · obtain ⟨rfl, hgood⟩ := cauchyInterp_correct H x g xl xu delta fuel alpha0 s aF h
    exact ⟨rfl, hgood.1.1, hgood.1.2, le_of_lt hgood.2⟩
  · push_neg at hc
    cases he : cauchyExtrap H x g xl xu delta
        (breakpoints x (fun i => -g i) xl xu).2.2 fuel alpha0 alpha0 with
    | none => rw [he] at h; cases h
    | some aE =>
      rw [he] at h
      have hpair : (cstep x g xl xu aE, aE) = (s, aF) :=
        Option.some_injective _ h
      have hs : s = cstep x g xl xu aE := (congrArg Prod.fst hpair).symm
      have ha : aF = aE := (congrArg Prod.snd hpair).symm
      have hg0 : cauchyGood H x g xl xu delta alpha0 := ⟨hc.1, hc.2⟩
      have hgood := cauchyExtrap_correct H x g xl xu delta _ fuel alpha0
        alpha0 aE hg0 he
      subst ha
      rw [hs]
      exact ⟨rfl, hgood.1.1, hgood.1.2, le_of_lt hgood.2⟩

/-- Witness for `cauchy_partial_spec`: for `n = 1`, `x = 0 ∈ [-1, 1]`,
`g = 1`, `H = id`, `delta = 1`, `alpha0 = 1` the extrapolation branch
returns `(s, alpha) = (-1, 10)`. -/
theorem cauchy_partial_spec_witness :
    cauchy (fun v : VecQ 1 => v) (fun _ => 0) (fun _ => 1) (fun _ => -1)
        (fun _ => 1) 1 1 3 = some (fun _ => -1, 10) ∧
      normSq (fun _ : Fin 1 => (-1 : ℚ)) ≤ 1 ^ 2 := by
  have h : cauchy (fun v : VecQ 1 => v) (fun _ => 0) (fun _ => 1)
      (fun _ => -1) (fun _ => 1) 1 1 3 = some (fun _ => -1, 10) := by
    have hfr : List.finRange 1 = [0] := by decide
    unfold cauchy breakpoints
    rw [hfr]
    norm_num [bpT, bpUpd, cstep, gps, sqLe, normSq, dot, mu0]
    rw [cauchyExtrap]
    norm_num [cstep, gps, sqLe, normSq, dot, mu0]
    rw [cauchyExtrap]
    norm_num [cstep, gps, sqLe, normSq, dot, mu0]
    funext i
    norm_num [cstep, gps]
  refine ⟨h, ?_⟩
  exact (cauchy_partial_spec (fun v : VecQ 1 => v) (fun _ => 0) (fun _ => 1)
    (fun _ => -1) (fun _ => 1) 1 1 3 (fun _ => -1) 10 h).2.2.1

/-- Nontermination of `cauchy` expressed in the fuel model: no amount of
fuel makes it return. -/
def cauchyDiverges {n : ℕ} (H : VecQ n → VecQ n) (x g xl xu : VecQ n)
    (delta alpha0 : ℚ) : Prop :=
  ∀ fuel, cauchy H x g xl xu delta alpha0 fuel = none

/-- Counterexample to claim C3 as stated: at the feasible input `n = 1`,
`x = 0 ∈ [-1, 1]`, `g = 0`, `H = id` (symmetric), `delta = 1 > 0`,
`alpha0 = 1 > 0`, every trial step is `s = 0`, the sufficient-decrease
test `q(s) < mu0·gᵗs` reads `0 < 0` and never succeeds, and the
interpolation loop of `cauchy` runs forever. -/
theorem cauchy_loops_forever_on_zero_gradient :
    cauchyDiverges (fun v : VecQ 1 => v) (fun _ => 0) (fun _ => 0)
      (fun _ => -1) (fun _ => 1) 1 1 := by
  intro fuel
  have hstep : ∀ a : ℚ, cstep (fun _ : Fin 1 => (0 : ℚ)) (fun _ => 0)
      (fun _ => -1) (fun _ => 1) a = fun _ => 0 := by
    intro a
    funext i
    norm_num [cstep, gps]
  have hint : ∀ (f : ℕ) (a : ℚ),
      cauchyInterp (fun v : VecQ 1 => v) (fun _ => 0) (fun _ => 0)
        (fun _ => -1) (fun _ => 1) 1 f a = none := by
    intro f
    induction f with
    | zero => intro a; rfl
    | succ f ih =>
      intro a
      rw [cauchyInterp]
      rw [if_neg]
      · exact ih _
      · rw [hstep]
        norm_num [dot, mu0]
  unfold cauchy
  rw [if_pos]
  · exact hint fuel 1
  · rw [hstep]
    right
    norm_num [dot, mu0]

/-! ## TRONFramework.trqsol (src/nlp/optimize/tron.py, lines 281-306) -/

/-- `rad` is the exact value of the guarded radical
`np.sqrt(max(ptx**2 + ptp*(dsq - xtx), 0))` computed by `trqsol`. -/
def radExact {n : ℕ} (w p : VecQ n) (delta rad : ℚ) : Prop :=
  0 ≤ rad ∧
    rad ^ 2 = max ((dot p w) ^ 2 + dot p p * (delta ^ 2 - dot w w)) 0

instance {n : ℕ} (w p : VecQ n) (delta rad : ℚ) :
    Decidable (radExact w p delta rad) := by
  unfold radExact; infer_instance

/-- `trqsol(x, p, delta)`: the stabilized largest-root formula, with the
radical `rad` passed in (the source computes it with `np.sqrt`). -/
def trqsol {n : ℕ} (w p : VecQ n) (delta rad : ℚ) : ℚ :=
  let ptx := dot p w
  let ptp := dot p p
  let xtx := dot w w
  let dsq := delta ^ 2
  if 0 < ptx then (dsq - xtx) / (ptx + rad)
  else if 0 < rad then (rad - ptx) / ptp
  else 0

theorem radExact_sq {n : ℕ} {w p : VecQ n} {delta rad : ℚ}
    (hw : normSq w ≤ delta ^ 2) (hrad : radExact w p delta rad) :
    rad ^ 2 = (dot p w) ^ 2 + dot p p * (delta ^ 2 - dot w w) := by
  have hd : (0 : ℚ) ≤ (dot p w) ^ 2 + dot p p * (delta ^ 2 - dot w w) := by
    have h1 : (0 : ℚ) ≤ (dot p w) ^ 2 := sq_nonneg _
    have h2 : (0 : ℚ) ≤ dot p p := dot_self_nonneg p
    have h3 : (0 : ℚ) ≤ delta ^ 2 - dot w w := by
      have : normSq w = dot w w := rfl
      linarith [hw]
    nlinarith
  rw [hrad.2, max_eq_left hd]

theorem trqsol_eq {n : ℕ} {w p : VecQ n} {delta rad : ℚ}
    (hp : p ≠ 0) (hw : normSq w ≤ delta ^ 2) (hrad : radExact w p delta rad) :
    trqsol w p delta rad = (rad - dot p w) / dot p p := by
  have hptp : 0 < dot p p := dot_self_pos hp
  have hsq := radExact_sq hw hrad
  have h3 : (0 : ℚ) ≤ delta ^ 2 - dot w w := by
    have hX : normSq w = dot w w := rfl
    linarith [hw]
  unfold trqsol
  simp only []
  split_ifs with h1 h2
  · rw [div_eq_div_iff (ne_of_gt (by linarith [hrad.1])) (ne_of_gt hptp)]
    linear_combination - hsq
  · rfl
  · push_neg at h1 h2
    have hrad0 : rad = 0 := le_antisymm h2 hrad.1
    have hpw : dot p w = 0 := by
      nlinarith [sq_nonneg (dot p w), mul_nonneg (le_of_lt hptp) h3]
    have hdx : dot p p * (delta ^ 2 - dot w w) = 0 := by
      nlinarith [sq_nonneg (dot p w), mul_nonneg (le_of_lt hptp) h3]
    rw [hpw, hrad0]
    simp

theorem trqsol_root {n : ℕ} {w p : VecQ n} {delta rad : ℚ}
    (hp : p ≠ 0) (hw : normSq w ≤ delta ^ 2) (hrad : radExact w p delta rad) :
    normSq (axpy (trqsol w p delta rad) p w) = delta ^ 2 := by
  have hptp : 0 < dot p p := dot_self_pos hp
  have hsq := radExact_sq hw hrad
  rw [trqsol_eq hp hw hrad, normSq_axpy]
  have hX : normSq w = dot w w := rfl
  rw [hX]
  have hne : dot p p ≠ 0 := ne_of_gt hptp
  field_simp
  linear_combination dot p p ^ 2 * hsq

theorem trqsol_nonneg {n : ℕ} {w p : VecQ n} {delta rad : ℚ}
    (hp : p ≠ 0) (hw : normSq w ≤ delta ^ 2) (hrad : radExact w p delta rad) :
    0 ≤ trqsol w p delta rad := by
  have hptp : 0 < dot p p := dot_self_pos hp
  have hsq := radExact_sq hw hrad
  rw [trqsol_eq hp hw hrad]
  apply div_nonneg _ (le_of_lt hptp)
  rcases le_or_lt (dot p w) 0 with h | h
  · linarith [hrad.1]
  · have h3 : (0 : ℚ) ≤ delta ^ 2 - dot w w := by
      have hX : normSq w = dot w w := rfl
      linarith [hw]
    have h4 : (dot p w) ^ 2 ≤ rad ^ 2 := by
      nlinarith [mul_nonneg (le_of_lt hptp) h3]
    nlinarith [hrad.1, h4, h]

theorem trqsol_largest {n : ℕ} {w p : VecQ n} {delta rad : ℚ}
    (hp : p ≠ 0) (hw : normSq w ≤ delta ^ 2) (hrad : radExact w p delta rad)
    {tau : ℚ} (htau : normSq (axpy tau p w) = delta ^ 2) :
    tau ≤ trqsol w p delta rad := by
  have hptp : 0 < dot p p := dot_self_pos hp
  have hsq := radExact_sq hw hrad
  rw [normSq_axpy] at htau
  have hX : normSq w = dot w w := rfl
  rw [hX] at htau
  rw [trqsol_eq hp hw hrad, le_div_iff hptp]
  have hkey : (dot p p * tau + dot p w) ^ 2 = rad ^ 2 := by
    rw [hsq]
    linear_combination dot p p * htau
  have hle : dot p p * tau + dot p w ≤ rad := by
    nlinarith [hkey, hrad.1]
  nlinarith [hle]

theorem dot_zero_left {n : ℕ} (b : VecQ n) : dot (0 : VecQ n) b = 0 := by
  unfold dot
  exact Finset.sum_eq_zero fun i _ => by simp

/-- Claim C8 (corrected): for every `w` with `‖w‖ ≤ delta` and `p ≠ 0`,
with `rad` the exact radical, `trqsol` returns `sigma ≥ 0` with
`‖w + sigma*p‖ = delta`, and `sigma` is the largest root of that equation
(hence the largest nonnegative root); when `p = 0` it returns `0`.  The
original claim's final clause — that `sigma = 0` whenever no nonnegative
root exists — fails (see the counterexample with `‖w‖ > delta`). -/
theorem trqsol_boundary_spec {n : ℕ} (w p : VecQ n) (delta rad : ℚ)
    (hp : p ≠ 0) (hw : normSq w ≤ delta ^ 2)
    (hrad : radExact w p delta rad) :
    0 ≤ trqsol w p delta rad ∧
      normSq (axpy (trqsol w p delta rad) p w) = delta ^ 2 ∧
      (∀ tau : ℚ, normSq (axpy tau p w) = delta ^ 2 →
        tau ≤ trqsol w p delta rad) ∧
      (∀ (m : ℕ) (w2 : VecQ m) (delta2 rad2 : ℚ),
        radExact w2 (0 : VecQ m) delta2 rad2 →
        trqsol w2 (0 : VecQ m) delta2 rad2 = 0) := by
  refine ⟨trqsol_nonneg hp hw hrad, trqsol_root hp hw hrad,
    fun tau htau => trqsol_largest hp hw hrad htau, ?_⟩
  intro m w2 delta2 rad2 h2
  have hz : dot (0 : VecQ m) w2 = 0 := dot_zero_left w2
  have hzz : dot (0 : VecQ m) (0 : VecQ m) = 0 := dot_zero_left _
  have hrad0 : rad2 = 0 := by
    have h22 := h2.2
    rw [hz, hzz] at h22
    norm_num at h22
    exact h22
  unfold trqsol
  rw [hz, hrad0]
  simp

/-- Witness for `trqsol_boundary_spec`: `n = 1`, `w = 0`, `p = 1`,
`delta = 1`, `rad = 1` gives `sigma = 1` on the boundary. -/
theorem trqsol_boundary_spec_witness :
    0 ≤ trqsol (fun _ : Fin 1 => (0 : ℚ)) (fun _ : Fin 1 => (1 : ℚ)) 1 1 ∧
      normSq (axpy (trqsol (fun _ : Fin 1 => (0 : ℚ))
          (fun _ : Fin 1 => (1 : ℚ)) 1 1)
        (fun _ : Fin 1 => (1 : ℚ)) (fun _ : Fin 1 => (0 : ℚ))) = 1 ^ 2 := by
  have h := trqsol_boundary_spec (fun _ : Fin 1 => (0 : ℚ))
    (fun _ : Fin 1 => (1 : ℚ)) 1 1
    (by intro hcon; exact absurd (congrFun hcon 0) (by norm_num))
    (by norm_num [normSq, dot, Fin.sum_univ_one])
    (by constructor <;> norm_num [dot, Fin.sum_univ_one])
  exact ⟨h.1, h.2.1⟩

/-- There is a `sigma ≥ 0` with `‖w + sigma*p‖ = delta`. -/
def trqsolNonnegRootEx {n : ℕ} (w p : VecQ n) (delta : ℚ) : Prop :=
  ∃ sigma : ℚ, 0 ≤ sigma ∧ normSq (axpy sigma p w) = delta ^ 2

/-- Counterexample to claim C8 as stated: at `w = (2)`, `p = (1)`,
`delta = 1` (so `‖w‖ > delta`), the equation `‖w + sigma*p‖ = 1` has no
nonnegative root, the radical is exactly `1`, yet `trqsol` returns `-1`,
not `0`. -/
theorem trqsol_no_root_returns_negative :
    radExact (fun _ : Fin 1 => (2 : ℚ)) (fun _ => 1) 1 1 ∧
      ¬ trqsolNonnegRootEx (fun _ : Fin 1 => (2 : ℚ)) (fun _ => 1) 1 ∧
      trqsol (fun _ : Fin 1 => (2 : ℚ)) (fun _ => 1) 1 1 = -1 := by
  refine ⟨?_, ?_, ?_⟩
  · constructor <;> norm_num [dot, Fin.sum_univ_one]
  · rintro ⟨sigma, hs, heq⟩
    simp only [normSq, dot, axpy, Fin.sum_univ_one] at heq
    nlinarith [heq, hs]
  · norm_num [trqsol, dot, Fin.sum_univ_one]

/-! ## TRONFramework.truncatedcg (src/nlp/optimize/tron.py, lines 308-416) -/

/-- The state at the top of one iteration of the CG loop: the iterate `w`,
the residuals `r` and `t` (the source keeps both, with `t = L*r` and the
preconditioner `L` equal to the identity here), the direction `p`, and
`rho` from the previous iteration. -/
structure CGState (n : ℕ) where
  w : VecQ n
  r : VecQ n
  t : VecQ n
  p : VecQ n
  rho : ℚ

/-- Outcome of one CG iteration: return from the function or continue. -/
inductive CGOut (n : ℕ)
  | exit (w : VecQ n) (info : ℕ)
  | cont (s : CGState n)

/-- One iteration of the `truncatedcg` for-loop body (lines 359-411):
`q = H*p`, `alpha = rho/ptq` guarded by `ptq > 0`, `sigma` from `trqsol`
(radical passed as `rad`); exit 3/4 on negative curvature or on leaving the
trust region, else update `w`, `r`, `t`, test the two residual convergence
tests (exit 1/2), else build the next direction `p = r + beta*p`. -/
def cgStep {n : ℕ} (H : VecQ n → VecQ n) (delta tol stol rad : ℚ)
    (s : CGState n) : CGOut n :=
  let q := H s.p
  let ptq := dot s.p q
  let alpha := if 0 < ptq then s.rho / ptq else 0
  let sigma := trqsol s.w s.p delta rad
  if ptq ≤ 0 ∨ sigma ≤ alpha then
    CGOut.exit (axpy sigma s.p s.w) (if ptq ≤ 0 then 3 else 4)
  else
    let w2 := axpy alpha s.p s.w
    let r2 := axpy (-alpha) q s.r
    let t2 := axpy (-alpha) q s.t
    let rtr := dot r2 r2
    if sqLe t2 tol then CGOut.exit w2 1
    else if sqLe r2 stol then CGOut.exit w2 2
    else CGOut.cont ⟨w2, r2, t2, fun i => r2 i + s.p i * (rtr / s.rho), rtr⟩

/-- The initial CG state (lines 337-351): `w = 0`, `t = r = p = -g`,
`rho = rᵗr`. -/
def cgInit {n : ℕ} (g : VecQ n) : CGState n :=
  ⟨fun _ => 0, fun i => -g i, fun i => -g i, fun i => -g i,
    dot (fun i => -g i) (fun i => -g i)⟩

/-- The CG loop (`for iters in range(0, itermax)`): `fuel` is the number of
remaining iterations, `k` the iteration index (also indexing the radical
oracle `radO`); exhausting the loop yields `info = 5`. -/
def cgLoop {n : ℕ} (H : VecQ n → VecQ n) (delta tol stol : ℚ)
    (radO : ℕ → ℚ) : ℕ → ℕ → CGState n → VecQ n × ℕ × ℕ
  | 0, k, s => (s.w, k, 5)
  | fuel + 1, k, s =>
    match cgStep H delta tol stol (radO k) s with
    | CGOut.exit w info => (w, k, info)
    | CGOut.cont s2 => cgLoop H delta tol stol radO fuel (k + 1) s2

/-- `truncatedcg(g, H, delta, tol, stol, itermax) → (w, iters, info)`,
with the immediate `(0, 0, info = 1)` return when `g = 0`. -/
def truncatedcg {n : ℕ} (g : VecQ n) (H : VecQ n → VecQ n)
    (delta tol stol : ℚ) (radO : ℕ → ℚ) (itermax : ℕ) : VecQ n × ℕ × ℕ :=
  let s0 := cgInit g
  if s0.rho = 0 then (s0.w, 0, 1)
  else cgLoop H delta tol stol radO itermax 0 s0

/-- The successor state of one iteration, `none` when that iteration
returns from the function. -/
def cgNext {n : ℕ} (H : VecQ n → VecQ n) (delta tol stol rad : ℚ)
    (s : CGState n) : Option (CGState n) :=
  match cgStep H delta tol stol rad s with
  | CGOut.exit _ _ => none
  | CGOut.cont s2 => some s2

/-- The CG state before iteration `k + j`, starting from state `s` before
iteration `k`; `none` once the loop has exited. -/
def cgStatesFrom {n : ℕ} (H : VecQ n → VecQ n) (delta tol stol : ℚ)
    (radO : ℕ → ℚ) (k : ℕ) (s : CGState n) : ℕ → Option (CGState n)
  | 0 => some s
  | j + 1 =>
    match cgStatesFrom H delta tol stol radO k s j with
    | none => none
    | some s2 => cgNext H delta tol stol (radO (k + j)) s2

/-- `rad` is the exact radical for the `trqsol` call issued from state `o`
(trivially satisfied once the loop has exited). -/
def radGoodO {n : ℕ} (delta rad : ℚ) : Option (CGState n) → Prop
  | none => True
  | some s2 => radExact s2.w s2.p delta rad

instance {n : ℕ} (delta rad : ℚ) (o : Option (CGState n)) :
    Decidable (radGoodO delta rad o) := by
  cases o with
  | none => exact isTrue trivial
  | some s2 => show Decidable (radExact s2.w s2.p delta rad); infer_instance

/-- The radical oracle value used at iteration `k + j` is exact for the
state reached there. -/
abbrev radGoodFrom {n : ℕ} (H : VecQ n → VecQ n) (delta tol stol : ℚ)
    (radO : ℕ → ℚ) (k : ℕ) (s : CGState n) (j : ℕ) : Prop :=
  radGoodO delta (radO (k + j)) (cgStatesFrom H delta tol stol radO k s j)

/-- The loop invariant of `truncatedcg`: the iterate is inside the trust
region, `rho = rᵗr` is positive, and `pᵗr = rho`. -/
def cgInv {n : ℕ} (delta : ℚ) (s : CGState n) : Prop :=
  normSq s.w ≤ delta ^ 2 ∧ s.rho = dot s.r s.r ∧ 0 < s.rho ∧
    dot s.p s.r = s.rho

theorem segment_bound {X A P dsq alpha sigma : ℚ}
    (hX : X ≤ dsq) (hroot : X + 2 * sigma * A + sigma ^ 2 * P = dsq)
    (h0 : 0 ≤ alpha) (h1 : alpha ≤ sigma) (hP : 0 ≤ P) :
    X + 2 * alpha * A + alpha ^ 2 * P ≤ dsq := by
  rcases eq_or_lt_of_le (le_trans h0 h1) with hs0 | hs0
  · have ha0 : alpha = 0 := le_antisymm (hs0 ▸ h1) h0
    rw [ha0]
    ring_nf
    linarith
  · have key : sigma * (dsq - (X + 2 * alpha * A + alpha ^ 2 * P)) =
        (sigma - alpha) * ((dsq - X) + alpha * sigma * P) := by
      linear_combination (-alpha) * hroot
    have h2 : 0 ≤ (sigma - alpha) * ((dsq - X) + alpha * sigma * P) :=
      mul_nonneg (by linarith)
        (by nlinarith [mul_nonneg (mul_nonneg h0 (le_of_lt hs0)) hP])
    nlinarith [key, h2, hs0]

theorem wbound_interior {n : ℕ} {w p : VecQ n} {delta rad alpha : ℚ}
    (hp : p ≠ 0) (hw : normSq w ≤ delta ^ 2)
    (hrad : radExact w p delta rad)
    (h0 : 0 ≤ alpha) (h1 : alpha ≤ trqsol w p delta rad) :
    normSq (axpy alpha p w) ≤ delta ^ 2 := by
  have hroot := trqsol_root hp hw hrad
  rw [normSq_axpy] at hroot ⊢
  exact segment_bound hw hroot h0 h1 (dot_self_nonneg p)

theorem cgInv_p_ne_zero {n : ℕ} {delta : ℚ} {s : CGState n}
    (hinv : cgInv delta s) : s.p ≠ 0 := by
  intro h0
  have := hinv.2.2.2
  rw [h0, dot_zero_left] at this
  exact absurd this.symm (ne_of_gt hinv.2.2.1)

theorem cgStep_exit {n : ℕ} {H : VecQ n → VecQ n} {delta tol stol rad : ℚ}
    {s : CGState n} {w : VecQ n} {info : ℕ}
    (hinv : cgInv delta s) (hrad : radExact s.w s.p delta rad)
    (heq : cgStep H delta tol stol rad s = CGOut.exit w info) :
    normSq w ≤ delta ^ 2 ∧ ((info = 3 ∨ info = 4) → normSq w = delta ^ 2) := by
  obtain ⟨hw, hrho_eq, hrho_pos, hpr⟩ := hinv
  have hp : s.p ≠ 0 := cgInv_p_ne_zero ⟨hw, hrho_eq, hrho_pos, hpr⟩
  unfold cgStep at heq
  simp only [] at heq
  by_cases hc1 : dot s.p (H s.p) ≤ 0 ∨
      trqsol s.w s.p delta rad ≤
        (if 0 < dot s.p (H s.p) then s.rho / dot s.p (H s.p) else 0)
  · rw [if_pos hc1] at heq
    injection heq with hweq hinfoeq
    have hb : normSq (axpy (trqsol s.w s.p delta rad) s.p s.w) = delta ^ 2 :=
      trqsol_root hp hw hrad
    rw [hweq] at hb
    exact ⟨le_of_eq hb, fun _ => hb⟩
  · rw [if_neg hc1] at heq
    push_neg at hc1
    obtain ⟨hptq, halt⟩ := hc1
    have halpha : (if 0 < dot s.p (H s.p) then s.rho / dot s.p (H s.p)
        else 0) = s.rho / dot s.p (H s.p) := if_pos hptq
    rw [halpha] at halt
    rw [halpha] at heq
    have ha0 : 0 ≤ s.rho / dot s.p (H s.p) :=
      le_of_lt (div_pos hrho_pos hptq)
    have hbound : normSq (axpy (s.rho / dot s.p (H s.p)) s.p s.w) ≤
        delta ^ 2 :=
      wbound_interior hp hw hrad ha0 (le_of_lt halt)
    split_ifs at heq with h2 h3
    · injection heq with hweq hinfoeq
      rw [hweq] at hbound
      exact ⟨hbound, fun hcon => by omega⟩
    · injection heq with hweq hinfoeq
      rw [hweq] at hbound
      exact ⟨hbound, fun hcon => by omega⟩

theorem cgStep_cont {n : ℕ} {H : VecQ n → VecQ n} {delta tol stol rad : ℚ}
    {s s2 : CGState n} (hstol : 0 ≤ stol)
    (hinv : cgInv delta s) (hrad : radExact s.w s.p delta rad)
    (heq : cgStep H delta tol stol rad s = CGOut.cont s2) :
    cgInv delta s2 := by
  obtain ⟨hw, hrho_eq, hrho_pos, hpr⟩ := hinv
  have hp : s.p ≠ 0 := cgInv_p_ne_zero ⟨hw, hrho_eq, hrho_pos, hpr⟩
  unfold cgStep at heq
  simp only [] at heq
  by_cases hc1 : dot s.p (H s.p) ≤ 0 ∨
      trqsol s.w s.p delta rad ≤
        (if 0 < dot s.p (H s.p) then s.rho / dot s.p (H s.p) else 0)
  · rw [if_pos hc1] at heq; cases heq
  · rw [if_neg hc1] at heq
    push_neg at hc1
    obtain ⟨hptq, halt⟩ := hc1
    have halpha : (if 0 < dot s.p (H s.p) then s.rho / dot s.p (H s.p)
        else 0) = s.rho / dot s.p (H s.p) := if_pos hptq
    rw [halpha] at halt
    rw [halpha] at heq
    split_ifs at heq with h2 h3
    · injection heq with hs2
      subst hs2
      have ha0 : 0 ≤ s.rho / dot s.p (H s.p) :=
        le_of_lt (div_pos hrho_pos hptq)
      have hbound : normSq (axpy (s.rho / dot s.p (H s.p)) s.p s.w) ≤
          delta ^ 2 :=
        wbound_interior hp hw hrad ha0 (le_of_lt halt)
      have hrtr_pos : 0 < dot (axpy (-(s.rho / dot s.p (H s.p))) (H s.p) s.r)
          (axpy (-(s.rho / dot s.p (H s.p))) (H s.p) s.r) := by
        rcases lt_or_eq_of_le (dot_self_nonneg
            (axpy (-(s.rho / dot s.p (H s.p))) (H s.p) s.r)) with hlt | heq0
        · exact hlt
        · exfalso
          apply h3
          constructor
          · exact hstol
          · show normSq _ ≤ stol ^ 2
            unfold normSq
            rw [← heq0]
            positivity
      have hporth : dot s.p (axpy (-(s.rho / dot s.p (H s.p))) (H s.p) s.r)
          = 0 := by
        rw [dot_axpy_right, hpr, neg_mul, div_mul_cancel₀ _ (ne_of_gt hptq)]
        ring
      unfold cgInv
      refine ⟨hbound, rfl, hrtr_pos, ?_⟩
      show dot (fun i => _ + s.p i * _) _ = _
      have hfun : (fun i => axpy (-(s.rho / dot s.p (H s.p))) (H s.p) s.r i +
          s.p i * (dot (axpy (-(s.rho / dot s.p (H s.p))) (H s.p) s.r)
            (axpy (-(s.rho / dot s.p (H s.p))) (H s.p) s.r) / s.rho)) =
          axpy (dot (axpy (-(s.rho / dot s.p (H s.p))) (H s.p) s.r)
            (axpy (-(s.rho / dot s.p (H s.p))) (H s.p) s.r) / s.rho) s.p
            (axpy (-(s.rho / dot s.p (H s.p))) (H s.p) s.r) := by
        funext i
        unfold axpy
        ring
      rw [hfun, dot_axpy_left, hporth]
      ring

theorem cgStatesFrom_shift {n : ℕ} (H : VecQ n → VecQ n)
    (delta tol stol : ℚ) (radO : ℕ → ℚ) (k : ℕ) {s s2 : CGState n}
    (hnext : cgNext H delta tol stol (radO k) s = some s2) :
    ∀ j, cgStatesFrom H delta tol stol radO k s (j + 1) =
      cgStatesFrom H delta tol stol radO (k + 1) s2 j := by
  intro j
  induction j with
  | zero =>
    simp [cgStatesFrom, hnext]
  | succ j ih =>
    rw [cgStatesFrom, ih, cgStatesFrom]
    have hidx : k + (j + 1) = k + 1 + j := by omega
    rw [hidx]

theorem cgLoop_inv_bound {n : ℕ} (H : VecQ n → VecQ n)
    (delta tol stol : ℚ) (radO : ℕ → ℚ) (hstol : 0 ≤ stol) :
    ∀ (fuel k : ℕ) (s : CGState n), cgInv delta s →
      (∀ j, j < fuel → radGoodFrom H delta tol stol radO k s j) →
      normSq (cgLoop H delta tol stol radO fuel k s).1 ≤ delta ^ 2 ∧
        (((cgLoop H delta tol stol radO fuel k s).2.2 = 3 ∨
            (cgLoop H delta tol stol radO fuel k s).2.2 = 4) →
          normSq (cgLoop H delta tol stol radO fuel k s).1 = delta ^ 2) := by
  intro fuel
  induction fuel with
  | zero =>
    intro k s hinv _
    simp only [cgLoop]
    exact ⟨hinv.1, fun hcon => absurd hcon (by simp)⟩
  | succ fuel ih =>
    intro k s hinv hgood
    have hrad : radExact s.w s.p delta (radO k) := by
      have h0 := hgood 0 (Nat.succ_pos fuel)
      simpa [radGoodFrom, radGoodO, cgStatesFrom] using h0
    rw [cgLoop]
    cases hstep : cgStep H delta tol stol (radO k) s with
    | exit w info =>
      simp only []
      exact cgStep_exit hinv hrad hstep
    | cont s2 =>
      simp only []
      have hnext : cgNext H delta tol stol (radO k) s = some s2 := by
        unfold cgNext
        rw [hstep]
      apply ih (k + 1) s2 (cgStep_cont hstol hinv hrad hstep)
      intro j hj
      have hg := hgood (j + 1) (by omega)
      unfold radGoodFrom at hg
      rw [cgStatesFrom_shift H delta tol stol radO k hnext j] at hg
      have hidx : k + (j + 1) = k + 1 + j := by omega
      rw [hidx] at hg
      exact hg

/-- Claim C6: for every gradient `g`, operator `H`, radius `delta > 0`,
nonnegative tolerances and iteration limit, the vector `w` returned by
`truncatedcg` satisfies `‖w‖ ≤ delta` (in exact arithmetic) for every exit
code `info ∈ {1,2,3,4,5}`, and in the `info = 3` and `info = 4` cases `w`
lies exactly on the trust-region boundary `‖w‖ = delta` via the `trqsol`
boundary step; `radO` supplies the exact radicals of the `trqsol` calls
along the run. -/
theorem truncatedcg_norm_bound {n : ℕ} (g : VecQ n) (H : VecQ n → VecQ n)
    (delta tol stol : ℚ) (radO : ℕ → ℚ) (itermax : ℕ)
    (hdelta : 0 < delta) (hstol : 0 ≤ stol)
    (hrad : ∀ j, j < itermax →
      radGoodFrom H delta tol stol radO 0 (cgInit g) j) :
    normSq (truncatedcg g H delta tol stol radO itermax).1 ≤ delta ^ 2 ∧
      (((truncatedcg g H delta tol stol radO itermax).2.2 = 3 ∨
          (truncatedcg g H delta tol stol radO itermax).2.2 = 4) →
        normSq (truncatedcg g H delta tol stol radO itermax).1 =
          delta ^ 2) := by
  unfold truncatedcg
  simp only []
  split_ifs with h0
  · constructor
    · show normSq (cgInit g).w ≤ delta ^ 2
      have hz : normSq (cgInit g).w = 0 := dot_zero_left _
      rw [hz]
      positivity
    · intro hcon
      exact absurd hcon (by simp)
  · have hinv : cgInv delta (cgInit g) := by
      refine ⟨?_, rfl, ?_, rfl⟩
      · have hz : normSq (cgInit g).w = 0 := dot_zero_left _
        rw [hz]
        positivity
      · exact lt_of_le_of_ne (dot_self_nonneg _) (Ne.symm h0)
    exact cgLoop_inv_bound H delta tol stol radO hstol itermax 0 (cgInit g)
      hinv hrad

/-- Witness for `truncatedcg_norm_bound`: `n = 1`, `g = (1)`, `H = id`,
`delta = 2`, `tol = stol = 0`, one CG iteration; the first (and only)
radical is exactly `2` and the loop exits with `info = 1` at `w = (-1)`. -/
theorem truncatedcg_norm_bound_witness :
    normSq (truncatedcg (fun _ : Fin 1 => (1 : ℚ)) (fun v => v) 2 0 0
        (fun _ => 2) 1).1 ≤ 2 ^ 2 := by
  have hrad : ∀ j, j < 1 →
      radGoodFrom (fun v : VecQ 1 => v) 2 0 0 (fun _ => 2) 0
        (cgInit (fun _ => 1)) j := by
    intro j hj
    have hj0 : j = 0 := by omega
    subst hj0
    show radExact (cgInit (fun _ : Fin 1 => (1 : ℚ))).w
      (cgInit (fun _ : Fin 1 => (1 : ℚ))).p 2 2
    constructor
    · norm_num
    · show (2 : ℚ) ^ 2 = max _ 0
      rw [max_eq_left]
      · norm_num [dot, cgInit, Fin.sum_univ_one]
      · norm_num [dot, cgInit, Fin.sum_univ_one]
  exact (truncatedcg_norm_bound (fun _ : Fin 1 => (1 : ℚ)) (fun v => v)
    2 0 0 (fun _ => 2) 1 (by norm_num) (le_refl 0) hrad).1

/-! ## RegSQPSolver.solve_linear_system and its call sites
(src/nlp/optimize/regsqp/new_regsqp.py, lines 168-259, 315-327, 486-493) -/

/-- The regularization state of the solver relevant to
`solve_linear_system`: the proximal parameter `merit.prox`, the value
`prox_last` recorded at the last successful solve, the penalty parameter
`merit.penalty`, and the two diagonal blocks of the assembled matrix `K`:
`hshift` is the total amount added to each Hessian-diagonal entry since
assembly (the prox contribution of `assemble_linear_system` is commented
out in the source, so `hshift = 0` right after assembly) and `ddiag` the
value of each dual-diagonal entry (assembled as `-1/penalty`). -/
structure RegState where
  prox : ℚ
  prox_last : ℚ
  penalty : ℚ
  hshift : ℚ
  ddiag : ℚ
deriving DecidableEq

/-- `prox_min = 1.0e-3`. -/
def prox_min_default : ℚ := 1 / 1000

/-- One pass of the regularization loop body (lines 193-221), as a
function of the two factorization flags read at the previous
factorization: if not second-order sufficient, the first bump sets
`prox = prox_min` (or `max(prox_min, 0.3*prox_last)`) and adds it to the
Hessian diagonal; a later bump adds `factor*prox` (`factor = 100` if
`prox_last == 0`, else `8`) to the Hessian diagonal and multiplies `prox`
by `factor + 1`; if not full rank, `-penalty_factor/penalty` (with
`penalty_factor = 10`) is added to the dual diagonal and `penalty` is
multiplied by `penalty_factor + 1 = 11`. -/
def bumpStep (pm : ℚ) (sos fullRank : Bool) (st : RegState) : RegState :=
  let st1 :=
    if sos then st
    else if st.prox = 0 then
      let newProx := if st.prox_last = 0 then pm
        else max pm (3 / 10 * st.prox_last)
      { st with prox := newProx, hshift := st.hshift + newProx }
    else
      let factor : ℚ := if st.prox_last = 0 then 100 else 8
      { st with hshift := st.hshift + factor * st.prox,
                prox := st.prox * (factor + 1) }
  if fullRank then st1
  else { st1 with ddiag := st1.ddiag - 10 / st1.penalty,
                  penalty := st1.penalty * (10 + 1) }

/-- The `while` loop of `solve_linear_system` (lines 189-231): `fuel` is
the number of remaining passes (the loop runs while `nb_bump <= bump_max`,
so `bump_max + 1` at entry), `k` indexes the refactorizations
(`oracle k` = (inertia is `(n, m, 0)`, is full rank) of factorization
`k`; `oracle 0` is the factorization performed before the loop). -/
def slsIter (pm : ℚ) (oracle : ℕ → Bool × Bool) :
    ℕ → ℕ → Bool → Bool → RegState → RegState × Bool × Bool
  | 0, _, sos, fr, st => (st, sos, fr)
  | fuel + 1, k, sos, fr, st =>
    if sos && fr then (st, sos, fr)
    else
      slsIter pm oracle fuel (k + 1) (oracle k).1 (oracle k).2
        (bumpStep pm sos fr st)

/-- The regularization loop as entered by `solve_linear_system`: the
factorization flags come from `oracle 0` and `merit.prox` is reset to `0`
(line 187). -/
def slsFinal (pm : ℚ) (bump_max : ℕ) (oracle : ℕ → Bool × Bool)
    (st0 : RegState) : RegState × Bool × Bool :=
  slsIter pm oracle (bump_max + 1) 1 (oracle 0).1 (oracle 0).2
    { st0 with prox := 0 }

/-- The tuple returned by `solve_linear_system`
(`status` is elided; `short_status` identifies it uniquely). -/
structure SLSReturn (nv nc : ℕ) where
  short_status : Option String
  solved : Bool
  dx : Option (VecQ nv)
  dy : Option (VecQ nc)
deriving DecidableEq

/-- `get_dx_dy(step) = (step[:n], -step[n:])` (lines 261-266). -/
def get_dx_dy (nv nc : ℕ) (step : VecQ (nv + nc)) : VecQ nv × VecQ nc :=
  (fun i => step (Fin.castAdd nc i), fun j => -step (Fin.natAdd nv j))

/-- `solve_linear_system(rhs)` as a function of the factorization oracle
and of the combined solution vector `xsol` that the external
`LBL.solve`/`LBL.refine` produce on success: on exhaustion it returns
`short_status = 'cnvx'` if the final factorization was not second-order
sufficient, else `'degn'` if it was not full rank, in both cases with
`solved = False` and no step (`dx = dy = None`); on success it records
`prox_last` and splits the step with `get_dx_dy`. -/
def solveLinearSystem (nv nc : ℕ) (pm : ℚ) (bump_max : ℕ)
    (oracle : ℕ → Bool × Bool) (xsol : VecQ (nv + nc)) (st0 : RegState) :
    SLSReturn nv nc × RegState :=
  let r := slsFinal pm bump_max oracle st0
  if r.2.1 = false then
    (⟨some ("cnvx"), false, none, none⟩, r.1)
  else if r.2.2 = false then
    (⟨some ("degn"), false, none, none⟩, r.1)
  else
    (⟨none, true, some (get_dx_dy nv nc xsol).1,
      some (get_dx_dy nv nc xsol).2⟩, { r.1 with prox_last := r.1.prox })

/-- Result of a call site that `assert`s on the returned flag. -/
inductive AssertOr (α : Type)
  | assertionError : AssertOr α
  | ok : α → AssertOr α
deriving DecidableEq

/-- The `assert solved` statement executed by both callers of
`solve_linear_system` (`solve`, line 493, and `solve_inner`, line 323;
in `solve_inner` the graceful `if not solved: failure = True` branch at
lines 325-327 is unreachable because the assert precedes it): when
`solved` is false the call site raises an uncaught `AssertionError`. -/
def assertSolved {nv nc : ℕ} (r : SLSReturn nv nc) :
    AssertOr (SLSReturn nv nc) :=
  if r.solved then AssertOr.ok r else AssertOr.assertionError

/-- Claim C1 (corrected): when the regularization loop exhausts `bump_max`
without both conditions holding, `solve_linear_system` surfaces the
failure as `short_status = 'cnvx'` (final inertia wrong) or `'degn'`
(inertia right, rank wrong), with `solved = False` and no step — but the
calling outer and inner loops then fail their `assert solved` statement,
raising an uncaught `AssertionError` instead of terminating the iteration
with a status. -/
theorem regsqp_linsolve_failure_status (nv nc : ℕ) (pm : ℚ)
    (bump_max : ℕ) (oracle : ℕ → Bool × Bool) (xsol : VecQ (nv + nc))
    (st0 : RegState) :
    ((slsFinal pm bump_max oracle st0).2.1 = false →
      (solveLinearSystem nv nc pm bump_max oracle xsol st0).1.short_status
          = some ("cnvx") ∧
        (solveLinearSystem nv nc pm bump_max oracle xsol st0).1.solved
          = false ∧
        (solveLinearSystem nv nc pm bump_max oracle xsol st0).1.dx = none ∧
        (solveLinearSystem nv nc pm bump_max oracle xsol st0).1.dy = none ∧
        assertSolved (solveLinearSystem nv nc pm bump_max oracle xsol st0).1
          = AssertOr.assertionError) ∧
      ((slsFinal pm bump_max oracle st0).2.1 = true →
        (slsFinal pm bump_max oracle st0).2.2 = false →
        (solveLinearSystem nv nc pm bump_max oracle xsol st0).1.short_status
            = some ("degn") ∧
          (solveLinearSystem nv nc pm bump_max oracle xsol st0).1.solved
            = false ∧
          (solveLinearSystem nv nc pm bump_max oracle xsol st0).1.dx
            = none ∧
          (solveLinearSystem nv nc pm bump_max oracle xsol st0).1.dy
            = none ∧
          assertSolved
              (solveLinearSystem nv nc pm bump_max oracle xsol st0).1
            = AssertOr.assertionError) ∧
      (∀ r : SLSReturn nv nc, r.solved = false →
        assertSolved r = AssertOr.assertionError) := by
  refine ⟨?_, ?_, ?_⟩
  · intro hsos
    unfold solveLinearSystem
    simp only [hsos]
    refine ⟨rfl, rfl, rfl, rfl, rfl⟩
  · intro hsos hfr
    unfold solveLinearSystem
    simp only [hsos, hfr]
    refine ⟨rfl, rfl, rfl, rfl, rfl⟩
  · intro r hr
    unfold assertSolved
    rw [hr]
    rfl

/-- Witness for `regsqp_linsolve_failure_status`: with an oracle that
never reports the required inertia, the concrete run returns `'cnvx'`,
`solved = False`, no step, and the caller's assert fires. -/
theorem regsqp_linsolve_failure_status_witness :
    (solveLinearSystem 1 1 (1 / 1000) 1 (fun _ => (false, false))
        (fun _ => 0) ⟨0, 0, 1, 0, -1⟩).1.short_status = some ("cnvx") ∧
      assertSolved (solveLinearSystem 1 1 (1 / 1000) 1
          (fun _ => (false, false)) (fun _ => 0) ⟨0, 0, 1, 0, -1⟩).1
        = AssertOr.assertionError := by
  have h := (regsqp_linsolve_failure_status 1 1 (1 / 1000) 1
    (fun _ => (false, false)) (fun _ => 0) ⟨0, 0, 1, 0, -1⟩).1 (by rfl)
  exact ⟨h.1, h.2.2.2.2⟩

/-- Counterexample to claim C1 as stated: for the concrete failing run
(`bump_max = 1`, every factorization reporting wrong inertia and rank
deficiency) `solve_linear_system` duly returns a `'cnvx'` failure status
with `solved = False`, but the calling loop's `assert solved` raises an
uncaught `AssertionError` — the iteration is not terminated with a
status. -/
theorem regsqp_caller_raises_assertion_error :
    assertSolved (solveLinearSystem 1 1 (1 / 1000) 1
        (fun _ => (false, false)) (fun _ => 0) ⟨0, 0, 1, 0, -1⟩).1
      = AssertOr.assertionError ∧
      (solveLinearSystem 1 1 (1 / 1000) 1 (fun _ => (false, false))
        (fun _ => 0) ⟨0, 0, 1, 0, -1⟩).1.solved = false := by
  exact ⟨rfl, rfl⟩

/-- Claim C2 (corrected): in the regularization loop, when the
factorization is not second-order sufficient the first bump sets
`prox = max(prox_min, 0.3*prox_last)` (`prox_min` when `prox_last` was
zero) exactly as claimed, but each subsequent bump multiplies `prox` by
`9` — not `8` — (by `101` — not `100` — when the last successful solve had
`prox = 0`), because the source adds `factor*prox` to the diagonal and
then multiplies `prox` by `factor + 1`; the Hessian diagonal stays
consistent (`hshift = prox` throughout).  When the factorization is not
full rank, each bump multiplies `penalty` by `11` — not `10` — and adds
`-10/penalty` to the dual diagonal, which therefore does *not* remain
equal to `-1/penalty`. -/
theorem bumpStep_first_zero (pm : ℚ) (fr : Bool) (st : RegState)
    (h1 : st.prox = 0) (h2 : st.prox_last = 0) :
    (bumpStep pm false fr st).prox = pm ∧
      (bumpStep pm false fr st).hshift = st.hshift + pm := by
  cases fr <;> simp [bumpStep, h1, h2]

theorem bumpStep_first_max (pm : ℚ) (fr : Bool) (st : RegState)
    (h1 : st.prox = 0) (h2 : st.prox_last ≠ 0) :
    (bumpStep pm false fr st).prox = max pm (3 / 10 * st.prox_last) ∧
      (bumpStep pm false fr st).hshift =
        st.hshift + max pm (3 / 10 * st.prox_last) := by
  cases fr <;> simp [bumpStep, h1, h2]

theorem bumpStep_subseq_zero (pm : ℚ) (fr : Bool) (st : RegState)
    (h1 : st.prox ≠ 0) (h2 : st.prox_last = 0) :
    (bumpStep pm false fr st).prox = st.prox * 101 ∧
      (bumpStep pm false fr st).hshift = st.hshift + 100 * st.prox := by
  cases fr <;> norm_num [bumpStep, h1, h2]

theorem bumpStep_subseq (pm : ℚ) (fr : Bool) (st : RegState)
    (h1 : st.prox ≠ 0) (h2 : st.prox_last ≠ 0) :
    (bumpStep pm false fr st).prox = st.prox * 9 ∧
      (bumpStep pm false fr st).hshift = st.hshift + 8 * st.prox := by
  cases fr <;> norm_num [bumpStep, h1, h2]

theorem bumpStep_penalty_bump (pm : ℚ) (sos : Bool) (st : RegState) :
    (bumpStep pm sos false st).penalty = st.penalty * 11 ∧
      (bumpStep pm sos false st).ddiag = st.ddiag - 10 / st.penalty := by
  cases sos <;> by_cases h1 : st.prox = 0 <;>
    by_cases h2 : st.prox_last = 0 <;> norm_num [bumpStep, h1, h2]

/-- Claim C2 (corrected): in the regularization loop, when the
factorization is not second-order sufficient the first bump sets
`prox = max(prox_min, 0.3*prox_last)` (`prox_min` when `prox_last` was
zero) exactly as claimed, but each subsequent bump multiplies `prox` by
`9` — not `8` — (by `101` — not `100` — when the last successful solve had
`prox = 0`), because the source adds `factor*prox` to the diagonal and
then multiplies `prox` by `factor + 1`; the Hessian diagonal stays
consistent with the proximal parameter (`hshift = prox` is preserved).
When the factorization is not full rank, each bump multiplies `penalty`
by `11` — not `10` — and adds `-10/penalty` to the dual diagonal, which
therefore does *not* remain equal to `-1/penalty`. -/
theorem regsqp_bump_rules (pm : ℚ) (fullRank : Bool) (st : RegState)
    (hpen : 0 < st.penalty) (hcons : st.hshift = st.prox) :
    (st.prox = 0 → st.prox_last = 0 →
      (bumpStep pm false fullRank st).prox = pm) ∧
      (st.prox = 0 → st.prox_last ≠ 0 →
        (bumpStep pm false fullRank st).prox =
          max pm (3 / 10 * st.prox_last)) ∧
      (st.prox ≠ 0 → st.prox_last = 0 →
        (bumpStep pm false fullRank st).prox = 101 * st.prox) ∧
      (st.prox ≠ 0 → st.prox_last ≠ 0 →
        (bumpStep pm false fullRank st).prox = 9 * st.prox) ∧
      (bumpStep pm false fullRank st).hshift =
        (bumpStep pm false fullRank st).prox ∧
      (∀ sos : Bool, (bumpStep pm sos false st).penalty = 11 * st.penalty ∧
        (bumpStep pm sos false st).ddiag = st.ddiag - 10 / st.penalty) ∧
      (st.ddiag = -(1 / st.penalty) →
        (bumpStep pm false false st).ddiag ≠
          -(1 / (bumpStep pm false false st).penalty)) := by
  refine ⟨?_, ?_, ?_, ?_, ?_, ?_, ?_⟩
  · intro h1 h2
    exact (bumpStep_first_zero pm fullRank st h1 h2).1
  · intro h1 h2
    exact (bumpStep_first_max pm fullRank st h1 h2).1
  · intro h1 h2
    rw [(bumpStep_subseq_zero pm fullRank st h1 h2).1]
    ring
  · intro h1 h2
    rw [(bumpStep_subseq pm fullRank st h1 h2).1]
    ring
  · by_cases h1 : st.prox = 0 <;> by_cases h2 : st.prox_last = 0
    · rw [(bumpStep_first_zero pm fullRank st h1 h2).1,
        (bumpStep_first_zero pm fullRank st h1 h2).2, hcons, h1]
      ring
    · rw [(bumpStep_first_max pm fullRank st h1 h2).1,
        (bumpStep_first_max pm fullRank st h1 h2).2, hcons, h1]
      ring
    · rw [(bumpStep_subseq_zero pm fullRank st h1 h2).1,
        (bumpStep_subseq_zero pm fullRank st h1 h2).2, hcons]
      ring
    · rw [(bumpStep_subseq pm fullRank st h1 h2).1,
        (bumpStep_subseq pm fullRank st h1 h2).2, hcons]
      ring
  · intro sos
    refine ⟨?_, (bumpStep_penalty_bump pm sos st).2⟩
    rw [(bumpStep_penalty_bump pm sos st).1]
    ring
  · intro hd
    rw [(bumpStep_penalty_bump pm false st).1,
      (bumpStep_penalty_bump pm false st).2, hd]
    intro hcon
    have hne : st.penalty ≠ 0 := ne_of_gt hpen
    field_simp at hcon
    nlinarith [hcon, hpen]

/-- Witness for `regsqp_bump_rules` at a concrete state with
`penalty = 1 > 0` and a consistent Hessian diagonal. -/
theorem regsqp_bump_rules_witness :
    (bumpStep (1 / 1000) false true ⟨0, 0, 1, 0, -1⟩).prox = 1 / 1000 ∧
      (bumpStep (1 / 1000) false false ⟨0, 0, 1, 0, -1⟩).penalty = 11 * 1 := by
  have h := regsqp_bump_rules (1 / 1000) true ⟨0, 0, 1, 0, -1⟩
    (by norm_num) (by norm_num)
  have h2 := regsqp_bump_rules (1 / 1000) false ⟨0, 0, 1, 0, -1⟩
    (by norm_num) (by norm_num)
  exact ⟨h.1 rfl rfl, (h2.2.2.2.2.2.1 false).1⟩

/-- Counterexample to claim C2 as stated: a failing run whose last
successful solve had `prox_last = 0` sets `prox = prox_min = 1/1000` on
the first bump; the claim says the second bump multiplies it by 100
(previous prox zero), i.e. `prox = 100/1000`, but the code multiplies by
`factor + 1 = 101`, giving `101/1000`. -/
theorem regsqp_second_bump_factor_counterexample :
    ((solveLinearSystem 1 1 (1 / 1000) 1 (fun _ => (false, true))
        (fun _ => 0) ⟨0, 0, 1, 0, -1⟩).2).prox = 101 / 1000 ∧
      (101 / 1000 : ℚ) ≠ 100 * (1 / 1000) := by
  constructor
  · norm_num [solveLinearSystem, slsFinal, slsIter, bumpStep]
  · norm_num

end NLPy
